import Mathlib

/-!
Verification of `single-linked-list.h`: a generic singly linked list with a
sentinel head node, a cached element count, forward iterators, and
position-based splice operations.

Shallow embedding.  A list state is the pair of
  * `chain`  : the sequence of values held by the real nodes reachable from
               the sentinel's forward link (in link order), and
  * `size_`  : the cached count field, updated by each operation exactly as
               the C++ code updates `size_` (it is NOT derived from `chain`).

Iterators are node pointers.  We model a pointer into a given list as
`Option Nat`: `none` is `nullptr`, `some 0` is the address of the sentinel
(`&head_`), and `some k` (`1 ≤ k`) is the address of the k-th real node.
Pointer equality between iterators of the same list is index equality, and
`nullptr` compares equal to `nullptr` across lists, which is all the claims
about iterator equality use.
-/

structure SingleLinkedList (α : Type) where
  chain : List α
  size_ : Nat
deriving Repr, DecidableEq

namespace SingleLinkedList

variable {α : Type}

/-- A node pointer: `none` = `nullptr`, `some 0` = sentinel, `some k` = k-th
real node (1-based). -/
abbrev NodePtr := Option Nat

/-- `SingleLinkedList() : size_(0)` with `head_.next_node = nullptr`. -/
def new : SingleLinkedList α := ⟨[], 0⟩

/-- `GetSize()` returns the cached `size_`. -/
def GetSize (l : SingleLinkedList α) : Nat := l.size_

/-- `IsEmpty()` returns `size_ == 0`. -/
def IsEmpty (l : SingleLinkedList α) : Bool := l.size_ == 0

/-- `PushFront`: `head_.next_node = new Node(value, head_.next_node); ++size_;`. -/
def PushFront (l : SingleLinkedList α) (value : α) : SingleLinkedList α :=
  ⟨value :: l.chain, l.size_ + 1⟩

/-- `PopFront`: returns early when `IsEmpty()`; otherwise unlinks and deletes
the first real node and decrements `size_`.  (The dereference
`head_.next_node->next_node` in the else-branch is the `tail`; it is a valid
dereference whenever `size_` truthfully reports a non-empty chain.) -/
def PopFront (l : SingleLinkedList α) : SingleLinkedList α :=
  if l.IsEmpty then l else ⟨l.chain.tail, l.size_ - 1⟩

/-- `InsertAfter(pos, value)`.  `none` models the failing
`assert(pos.node_ != nullptr)`.  For `pos = some k` (sentinel or k-th node)
the new node is spliced between node `k` and its former successor, `size_` is
incremented, and the returned iterator `Iterator(pos.node_->next_node)`
points at the new node, which sits at position `k + 1`. -/
def InsertAfter (l : SingleLinkedList α) (pos : NodePtr) (value : α) :
    Option (SingleLinkedList α × Nat) :=
  match pos with
  | none => none
  | some k => some (⟨l.chain.insertIdx k value, l.size_ + 1⟩, k + 1)

/-- Body of `InsertAfter` with an explicit outcome for the allocation
`new Node(value, nullptr)`, the first statement executed after the assert.
When the allocation throws, no later statement of the body runs, so the
`.error` case carries the list state at the throw point: the argument list,
untouched. -/
def InsertAfterWithAlloc (l : SingleLinkedList α) (k : Nat) (value : α)
    (allocOk : Bool) : Except (SingleLinkedList α) (SingleLinkedList α × Nat) :=
  if allocOk then .ok (⟨l.chain.insertIdx k value, l.size_ + 1⟩, k + 1)
  else .error l

/-- Possible outcomes of `EraseAfter`. -/
inductive EraseResult (α : Type) where
  | assertTrap
  | nullDeref
  | ok (state : SingleLinkedList α) (ret : NodePtr)
deriving Repr, DecidableEq

/-- `EraseAfter(pos)`.  The code asserts only `pos.node_ != nullptr`
(`assertTrap` when that fails).  It then reads
`erase_node = pos.node_->next_node` and immediately dereferences
`erase_node->next_node`; when node `k` has no successor (`k` is not less than
the chain length) `erase_node` is `nullptr` and the dereference is a null
dereference (`nullDeref`) — there is no assert guarding it.  Otherwise the
successor (chain index `k`, 0-based) is unlinked and deleted, `size_` is
decremented, and `Iterator(pos.node_->next_node)` — the former node `k + 2`,
now at position `k + 1` — is returned (null when no such node remains). -/
def EraseAfter (l : SingleLinkedList α) (pos : NodePtr) : EraseResult α :=
  match pos with
  | none => .assertTrap
  | some k =>
    if k < l.chain.length then
      .ok ⟨l.chain.eraseIdx k, l.size_ - 1⟩
        (if k + 1 < l.chain.length then some (k + 1) else none)
    else .nullDeref

/-- `Clear()`: the loop deletes each reachable node and decrements `size_`
once per node, then stops when `head_.next_node == nullptr`. -/
def Clear (l : SingleLinkedList α) : SingleLinkedList α :=
  ⟨[], l.size_ - l.chain.length⟩

/-- `begin()` is `Iterator(head_.next_node)`: null for an empty chain, the
first real node otherwise. -/
def begin (l : SingleLinkedList α) : NodePtr :=
  if l.chain.length = 0 then none else some 1

/-- `end()` is `Iterator(nullptr)`. -/
def endIter (_l : SingleLinkedList α) : NodePtr := none

/-- `before_begin()` is `Iterator(&head_)`, the sentinel. -/
def before_begin (_l : SingleLinkedList α) : NodePtr := some 0

/-- A default-constructed `BasicIterator` (either mutability): `node_`
is `nullptr`. -/
def defaultIterator : NodePtr := none

/-- `BasicIterator::operator==` compares the stored node pointers; the
definition is identical for every mutability pairing
(`Type`/`Type`, `Type`/`const Type`, and symmetric). -/
def iterEq (a b : NodePtr) : Bool := a == b

/-- `swap(other)`: exchanges `head_.next_node` and `size_`. -/
def swap (l r : SingleLinkedList α) : SingleLinkedList α × SingleLinkedList α :=
  (⟨r.chain, r.size_⟩, ⟨l.chain, l.size_⟩)

/-- The loop of the `initializer_list` and copy constructors:
`current = temp.InsertAfter(current, element)` for each element in order,
starting from `current = temp.before_begin()`. -/
def fromValuesLoop (temp : SingleLinkedList α) (current : Nat) :
    List α → SingleLinkedList α
  | [] => temp
  | x :: xs =>
    match temp.InsertAfter (some current) x with
    | some (t, cur) => fromValuesLoop t cur xs
    | none => temp

/-- `SingleLinkedList(std::initializer_list<Type>)` (and, applied to
`other.chain`, the copy constructor): build a fresh list by repeated
`InsertAfter` at the running iterator, then swap into `*this`. -/
def fromValues (values : List α) : SingleLinkedList α :=
  fromValuesLoop new 0 values

/-- The number of `++` steps an iterator takes before it becomes the null
(end) iterator: `operator++` replaces `node_` by `node_->next_node`, which is
node `k + 1` when that node exists and `nullptr` otherwise. -/
def stepsToEnd (l : SingleLinkedList α) : NodePtr → Nat
  | none => 0
  | some k =>
    1 + stepsToEnd l (if k + 1 ≤ l.chain.length then some (k + 1) else none)
termination_by it => match it with
  | none => 0
  | some k => l.chain.length + 1 - k + 1
decreasing_by
  simp_wf
  split
  · omega
  · rename_i heq
    split at heq
    · rename_i hle
      injection heq with h
      omega
    · simp at heq

/-- `std::equal(first1, last1, first2)`: compares the first range against the
second, element by element, assuming the second range is at least as long
(the call site guards this with the size comparison). -/
def equalRanges [BEq α] : List α → List α → Bool
  | [], _ => true
  | _ :: _, [] => false
  | x :: xs, y :: ys => x == y && equalRanges xs ys

/-- `operator==` on lists:
`lhs.GetSize() == rhs.GetSize() && equal(lhs.cbegin(), lhs.cend(), rhs.cbegin())`. -/
def listEq [BEq α] (lhs rhs : SingleLinkedList α) : Bool :=
  lhs.GetSize == rhs.GetSize && equalRanges lhs.chain rhs.chain

/-- `operator!=` on lists: `!(lhs == rhs)`. -/
def listNe [BEq α] (lhs rhs : SingleLinkedList α) : Bool :=
  !(listEq lhs rhs)

/-- `std::lexicographical_compare(first1, last1, first2, last2)` with the
element type's `operator<` as `lt`. -/
def lexicographicalCompare (lt : α → α → Bool) : List α → List α → Bool
  | _, [] => false
  | [], _ :: _ => true
  | x :: xs, y :: ys =>
    if lt x y then true else if lt y x then false else lexicographicalCompare lt xs ys

/-- `operator<` on lists: lexicographical comparison of the two chains. -/
def listLt (lt : α → α → Bool) (lhs rhs : SingleLinkedList α) : Bool :=
  lexicographicalCompare lt lhs.chain rhs.chain

/-- The value read by `operator*` at a node pointer: the value of real node
`k` is chain entry `k - 1`; the sentinel's value field is never a stored
element (`none`), and dereferencing `nullptr` is asserted against. -/
def atIter (l : SingleLinkedList α) (it : NodePtr) : Option α :=
  match it with
  | none => none
  | some 0 => none
  | some (k + 1) => l.chain[k]?

/-- States reachable by some sequence of the public operations starting from
a constructor, with each position argument a live pointer into the current
list (a dangling or null position is undefined behavior in the source). -/
inductive Reachable : SingleLinkedList α → Prop where
  | new : Reachable new
  | ofValues (values : List α) : Reachable (fromValues values)
  | copy {l : SingleLinkedList α} : Reachable l → Reachable (fromValues l.chain)
  | pushFront {l : SingleLinkedList α} (v : α) :
      Reachable l → Reachable (l.PushFront v)
  | popFront {l : SingleLinkedList α} : Reachable l → Reachable l.PopFront
  | insertAfter {l l2 : SingleLinkedList α} {k ret : Nat} {v : α} :
      Reachable l → k ≤ l.chain.length →
      l.InsertAfter (some k) v = some (l2, ret) → Reachable l2
  | eraseAfter {l l2 : SingleLinkedList α} {pos : NodePtr} {ret : NodePtr} :
      Reachable l → l.EraseAfter pos = .ok l2 ret → Reachable l2
  | clear {l : SingleLinkedList α} : Reachable l → Reachable l.Clear
  | swapLeft {l r : SingleLinkedList α} :
      Reachable l → Reachable r → Reachable (swap l r).1
  | swapRight {l r : SingleLinkedList α} :
      Reachable l → Reachable r → Reachable (swap l r).2

/-! ### Helper lemmas -/

theorem insertIdx_eq_take_drop (v : α) :
    ∀ (k : Nat) (l : List α), k ≤ l.length →
      l.insertIdx k v = l.take k ++ v :: l.drop k := by
  intro k
  induction k with
  | zero => intro l _; simp [List.insertIdx_zero]
  | succ n ih =>
    intro l hl
    cases l with
    | nil => simp at hl
    | cons x xs =>
      simp only [List.insertIdx_succ_cons, List.take_succ_cons, List.drop_succ_cons,
        List.cons_append, List.cons.injEq, true_and]
      exact ih xs (by simpa using hl)

theorem fromValuesLoop_spec :
    ∀ (xs : List α) (temp : SingleLinkedList α),
      fromValuesLoop temp temp.chain.length xs =
        ⟨temp.chain ++ xs, temp.size_ + xs.length⟩ := by
  intro xs
  induction xs with
  | nil => intro temp; simp [fromValuesLoop]
  | cons x xs ih =>
    intro temp
    have hstep :
        fromValuesLoop temp temp.chain.length (x :: xs) =
          fromValuesLoop ⟨temp.chain ++ [x], temp.size_ + 1⟩
            (temp.chain.length + 1) xs := by
      simp [fromValuesLoop, InsertAfter, List.insertIdx_length_self]
    have hlen : (temp.chain ++ [x]).length = temp.chain.length + 1 := by simp
    calc fromValuesLoop temp temp.chain.length (x :: xs)
        = fromValuesLoop ⟨temp.chain ++ [x], temp.size_ + 1⟩
            (temp.chain.length + 1) xs := hstep
      _ = fromValuesLoop ⟨temp.chain ++ [x], temp.size_ + 1⟩
            (SingleLinkedList.mk (temp.chain ++ [x]) (temp.size_ + 1)).chain.length xs := by
            rw [show (SingleLinkedList.mk (temp.chain ++ [x]) (temp.size_ + 1)).chain.length
                  = temp.chain.length + 1 from hlen]
      _ = ⟨(temp.chain ++ [x]) ++ xs, (temp.size_ + 1) + xs.length⟩ :=
            ih ⟨temp.chain ++ [x], temp.size_ + 1⟩
      _ = ⟨temp.chain ++ x :: xs, temp.size_ + (xs.length + 1)⟩ := by
            simp only [List.append_assoc, List.singleton_append]
            congr 1
            omega

theorem fromValues_eq (values : List α) :
    fromValues values = ⟨values, values.length⟩ := by
  have h := fromValuesLoop_spec values (new : SingleLinkedList α)
  simpa [fromValues, new] using h

theorem stepsToEnd_some (l : SingleLinkedList α) :
    ∀ (d k : Nat), l.chain.length - k = d → 1 ≤ k → k ≤ l.chain.length →
      stepsToEnd l (some k) = l.chain.length + 1 - k := by
  intro d
  induction d with
  | zero =>
    intro k hd _ hk2
    have hk : k = l.chain.length := by omega
    rw [stepsToEnd]
    have hcond : ¬ (k + 1 ≤ l.chain.length) := by omega
    simp only [hcond, if_false]
    rw [stepsToEnd]
    omega
  | succ n ih =>
    intro k hd hk1 _
    have hcond : k + 1 ≤ l.chain.length := by omega
    rw [stepsToEnd]
    simp only [hcond, if_true]
    have := ih (k + 1) (by omega) (by omega) (by omega)
    omega

theorem stepsToEnd_begin (l : SingleLinkedList α) :
    stepsToEnd l l.begin = l.chain.length := by
  by_cases h : l.chain.length = 0
  · rw [SingleLinkedList.begin, if_pos h, stepsToEnd, h]
  · rw [SingleLinkedList.begin, if_neg h]
    have := stepsToEnd_some l (l.chain.length - 1) 1 rfl (by omega) (by omega)
    omega

theorem Reachable.size_eq_length {l : SingleLinkedList α} (h : Reachable l) :
    l.size_ = l.chain.length := by
  induction h with
  | new => rfl
  | ofValues values => rw [fromValues_eq]
  | copy _ _ => rw [fromValues_eq]
  | pushFront v _ ih => simp [PushFront, ih]
  | popFront _ ih =>
    rename_i l0 _
    by_cases he : l0.IsEmpty
    · simp [PopFront, he, ih]
    · have hs : l0.size_ ≠ 0 := by
        simpa [IsEmpty] using he
      have hchain : l0.chain ≠ [] := by
        intro hnil
        rw [ih, hnil] at hs
        exact hs rfl
      simp [PopFront, he, ih, List.length_tail]
  | insertAfter _ hk heq ih =>
    rename_i l0 l2 k ret v _
    simp only [InsertAfter, Option.some.injEq, Prod.mk.injEq] at heq
    obtain ⟨hl2, _⟩ := heq
    rw [← hl2]
    simp [List.length_insertIdx _ _ hk, ih]
  | eraseAfter _ heq ih =>
    rename_i l0 l2 pos ret _
    match pos with
    | none => simp [EraseAfter] at heq
    | some k =>
      simp only [EraseAfter] at heq
      by_cases hk : k < l0.chain.length
      · rw [if_pos hk] at heq
        cases heq
        simp [List.length_eraseIdx_of_lt hk, ih]
      · rw [if_neg hk] at heq
        cases heq
  | clear _ ih => simp [Clear, ih]
  | swapLeft _ _ ih1 ih2 => exact ih2
  | swapRight _ _ ih1 ih2 => exact ih1

/-! ### Claims -/

/-- C1: for every list reachable by a sequence of the public operations, the
stored count returned by `GetSize()` equals the number of nodes reachable
from the sentinel's forward link (the chain length) and equals the number of
iterator steps from `begin()` to `end()`. -/
theorem c1_size_invariant {l : SingleLinkedList α} (h : Reachable l) :
    l.GetSize = l.chain.length ∧ l.GetSize = stepsToEnd l l.begin := by
  have hs := h.size_eq_length
  refine ⟨hs, ?_⟩
  rw [stepsToEnd_begin]
  exact hs

/-- Witness for C1 at the reachable state
`PushFront 2 (PushFront 1 (SingleLinkedList()))`. -/
theorem c1_size_invariant_witness :
    ((new : SingleLinkedList Nat).PushFront 1 |>.PushFront 2).GetSize =
        ((new : SingleLinkedList Nat).PushFront 1 |>.PushFront 2).chain.length ∧
      ((new : SingleLinkedList Nat).PushFront 1 |>.PushFront 2).GetSize =
        stepsToEnd ((new : SingleLinkedList Nat).PushFront 1 |>.PushFront 2)
          ((new : SingleLinkedList Nat).PushFront 1 |>.PushFront 2).begin :=
  c1_size_invariant ((Reachable.new.pushFront 1).pushFront 2)

/-- C2: `InsertAfter(pos, value)` at a valid position (sentinel `k = 0` or a
real node `k ≤ length`) splices the new value between node `k` and its former
successor — the chain becomes `take k ++ value :: drop k`, so every other
element is unchanged and in order — increments the count by one, and returns
an iterator whose dereference is the inserted value; and when the allocation
(the first statement of the body) fails, the list is returned unchanged. -/
theorem c2_insertAfter_spec (l : SingleLinkedList α) (k : Nat) (v : α)
    (h : k ≤ l.chain.length) :
    l.InsertAfter (some k) v =
        some (⟨l.chain.take k ++ v :: l.chain.drop k, l.size_ + 1⟩, k + 1) ∧
    (⟨l.chain.take k ++ v :: l.chain.drop k, l.size_ + 1⟩ :
        SingleLinkedList α).GetSize = l.GetSize + 1 ∧
    atIter ⟨l.chain.take k ++ v :: l.chain.drop k, l.size_ + 1⟩ (some (k + 1)) =
        some v ∧
    l.InsertAfterWithAlloc k v false = .error l := by
  refine ⟨?_, rfl, ?_, rfl⟩
  · simp [InsertAfter, insertIdx_eq_take_drop v k l.chain h]
  · have hlen : (l.chain.take k).length = k := List.length_take_of_le h
    simp only [atIter]
    rw [List.getElem?_append_right (by omega)]
    simp [hlen]

/-- Witness for C2: insert `9` after the first node of `[5, 6]`. -/
theorem c2_insertAfter_spec_witness :
    (⟨[5, 6], 2⟩ : SingleLinkedList Nat).InsertAfter (some 1) 9 =
        some (⟨[5, 9, 6], 3⟩, 2) ∧
    (⟨[5, 9, 6], 3⟩ : SingleLinkedList Nat).GetSize =
        (⟨[5, 6], 2⟩ : SingleLinkedList Nat).GetSize + 1 ∧
    atIter (⟨[5, 9, 6], 3⟩ : SingleLinkedList Nat) (some 2) = some 9 ∧
    (⟨[5, 6], 2⟩ : SingleLinkedList Nat).InsertAfterWithAlloc 1 9 false =
        .error ⟨[5, 6], 2⟩ :=
  c2_insertAfter_spec ⟨[5, 6], 2⟩ 1 9 (by decide)

/-- C3 (code bug): on an empty list, `before_begin()` is the sentinel, a
non-null position, so the single `assert(pos.node_ != nullptr)` in
`EraseAfter` passes; the code then dereferences
`erase_node->next_node` with `erase_node == nullptr` instead of trapping in
an assertion. -/
theorem c3_eraseAfter_missing_assert :
    (new : SingleLinkedList Nat).before_begin ≠ none ∧
    (new : SingleLinkedList Nat).EraseAfter (new : SingleLinkedList Nat).before_begin =
      .nullDeref := by
  exact ⟨by decide, rfl⟩

/-- C7: inserting a value after a valid position `k` and then erasing after
the same position restores the original list exactly (same chain, same
count). -/
theorem c7_insert_then_erase (l : SingleLinkedList α) (k : Nat) (v : α)
    (h : k ≤ l.chain.length) :
    ∀ l2 ret, l.InsertAfter (some k) v = some (l2, ret) →
      ∃ it, l2.EraseAfter (some k) = .ok l it := by
  intro l2 ret heq
  simp only [InsertAfter, Option.some.injEq, Prod.mk.injEq] at heq
  obtain ⟨hl2, -⟩ := heq
  have hlen : l2.chain.length = l.chain.length + 1 := by
    rw [← hl2]; simpa using List.length_insertIdx _ _ h
  refine ⟨if k + 1 < l2.chain.length then some (k + 1) else none, ?_⟩
  rw [EraseAfter]
  have hk2 : k < l2.chain.length := by omega
  rw [if_pos hk2]
  have hchain : l2.chain.eraseIdx k = l.chain := by
    rw [← hl2]; exact List.eraseIdx_insertIdx k l.chain
  have hsize : l2.size_ - 1 = l.size_ := by rw [← hl2]; simp
  rw [hchain, hsize]

/-- Witness for C7: insert `9` after the sentinel of `[5]`, then erase after
the sentinel. -/
theorem c7_insert_then_erase_witness :
    ∃ it, (⟨[9, 5], 2⟩ : SingleLinkedList Nat).EraseAfter (some 0) =
      .ok ⟨[5], 1⟩ it :=
  c7_insert_then_erase ⟨[5], 1⟩ 0 9 (by decide) ⟨[9, 5], 2⟩ 1 rfl

/-- C8: on a list whose count truthfully reports the chain (every reachable
list, by C1), `PopFront` on a non-empty list removes exactly the first
element and decrements the count, and `PopFront` on an empty list is a
no-op leaving an empty list with count zero. -/
theorem c8_popFront_spec (l : SingleLinkedList α) (hinv : l.size_ = l.chain.length) :
    (∀ x t, l.chain = x :: t →
      l.PopFront.chain = t ∧ l.PopFront.GetSize = l.GetSize - 1) ∧
    (l.chain = [] →
      l.PopFront = l ∧ l.PopFront.GetSize = 0 ∧ l.PopFront.IsEmpty = true) := by
  constructor
  · intro x t hx
    have hne : ¬ l.IsEmpty = true := by
      simp [IsEmpty, hinv, hx]
    simp [PopFront, hne, hx, GetSize]
  · intro hnil
    have he : l.IsEmpty = true := by simp [IsEmpty, hinv, hnil]
    refine ⟨by simp [PopFront, he], ?_, ?_⟩ <;>
      simp [PopFront, he, GetSize, IsEmpty, hinv, hnil]

/-- Witness for C8 at the list `[7]` and at the empty list, both with a
truthful count. -/
theorem c8_popFront_spec_witness :
    ((∀ x t, (⟨[7], 1⟩ : SingleLinkedList Nat).chain = x :: t →
        (⟨[7], 1⟩ : SingleLinkedList Nat).PopFront.chain = t ∧
        (⟨[7], 1⟩ : SingleLinkedList Nat).PopFront.GetSize =
          (⟨[7], 1⟩ : SingleLinkedList Nat).GetSize - 1) ∧
      ((⟨[7], 1⟩ : SingleLinkedList Nat).chain = [] →
        (⟨[7], 1⟩ : SingleLinkedList Nat).PopFront = ⟨[7], 1⟩ ∧
        (⟨[7], 1⟩ : SingleLinkedList Nat).PopFront.GetSize = 0 ∧
        (⟨[7], 1⟩ : SingleLinkedList Nat).PopFront.IsEmpty = true)) ∧
    ((∀ x t, (new : SingleLinkedList Nat).chain = x :: t →
        (new : SingleLinkedList Nat).PopFront.chain = t ∧
        (new : SingleLinkedList Nat).PopFront.GetSize =
          (new : SingleLinkedList Nat).GetSize - 1) ∧
      ((new : SingleLinkedList Nat).chain = [] →
        (new : SingleLinkedList Nat).PopFront = new ∧
        (new : SingleLinkedList Nat).PopFront.GetSize = 0 ∧
        (new : SingleLinkedList Nat).PopFront.IsEmpty = true)) :=
  ⟨c8_popFront_spec ⟨[7], 1⟩ rfl, c8_popFront_spec new rfl⟩

/-- C9: on every non-empty list with a truthful count, `PopFront` produces
exactly the state produced by `EraseAfter(before_begin())` with the returned
iterator discarded. -/
theorem c9_popFront_eq_eraseAfter_beforeBegin (l : SingleLinkedList α)
    (hinv : l.size_ = l.chain.length) (hne : l.chain ≠ []) :
    ∃ ret, l.EraseAfter l.before_begin = .ok l.PopFront ret := by
  have hlen : 0 < l.chain.length := List.length_pos.mpr hne
  have hs0 : l.chain.length ≠ 0 := by omega
  have hnemp : ¬ l.IsEmpty = true := by
    simp [IsEmpty, hinv, hs0]
  refine ⟨if 0 + 1 < l.chain.length then some (0 + 1) else none, ?_⟩
  rw [before_begin, EraseAfter]
  rw [if_pos hlen]
  have : l.chain.eraseIdx 0 = l.chain.tail := by
    cases l.chain with
    | nil => rfl
    | cons x xs => rfl
  rw [this]
  simp [PopFront, hnemp]

/-- Witness for C9 at the list `[4, 8]`. -/
theorem c9_popFront_eq_eraseAfter_beforeBegin_witness :
    ∃ ret, (⟨[4, 8], 2⟩ : SingleLinkedList Nat).EraseAfter
        (⟨[4, 8], 2⟩ : SingleLinkedList Nat).before_begin =
      .ok (⟨[4, 8], 2⟩ : SingleLinkedList Nat).PopFront ret :=
  c9_popFront_eq_eraseAfter_beforeBegin ⟨[4, 8], 2⟩ rfl (by decide)

/-- C10: a default-constructed iterator (`node_ = nullptr`, identical for
both mutability instantiations) compares equal to the end iterator of every
list, and the end iterators of any two lists compare equal:
`operator==` compares the stored node pointers, and all of these are null. -/
theorem c10_default_eq_end :
    (∀ (l : SingleLinkedList α), iterEq defaultIterator l.endIter = true) ∧
    (∀ (a b : SingleLinkedList α), iterEq a.endIter b.endIter = true) :=
  ⟨fun _ => rfl, fun _ _ => rfl⟩

/-! ### Comparison lemmas -/

/-- The element type's `operator<` as a Boolean function. -/
def ltBool [LinearOrder α] (x y : α) : Bool := decide (x < y)

theorem equalRanges_iff [BEq α] [LawfulBEq α] :
    ∀ xs ys : List α, xs.length = ys.length →
      (equalRanges xs ys = true ↔ xs = ys) := by
  intro xs
  induction xs with
  | nil =>
    intro ys hlen
    cases ys with
    | nil => simp [equalRanges]
    | cons y ys => simp at hlen
  | cons x xs ih =>
    intro ys hlen
    cases ys with
    | nil => simp at hlen
    | cons y ys =>
      have hlen2 : xs.length = ys.length := by simpa using hlen
      simp [equalRanges, Bool.and_eq_true, ih ys hlen2]

theorem listEq_eq_true_iff [BEq α] [LawfulBEq α] (a b : SingleLinkedList α)
    (ha : a.size_ = a.chain.length) (hb : b.size_ = b.chain.length) :
    listEq a b = true ↔ (a.GetSize = b.GetSize ∧ a.chain = b.chain) := by
  constructor
  · intro h
    simp only [listEq, Bool.and_eq_true, beq_iff_eq] at h
    obtain ⟨hsz, heq⟩ := h
    have hlen : a.chain.length = b.chain.length := by
      rw [← ha, ← hb]; exact hsz
    exact ⟨hsz, (equalRanges_iff a.chain b.chain hlen).mp heq⟩
  · intro ⟨hsz, hch⟩
    have hlen : a.chain.length = b.chain.length := by rw [hch]
    simp only [listEq, Bool.and_eq_true, beq_iff_eq]
    exact ⟨hsz, (equalRanges_iff a.chain b.chain hlen).mpr hch⟩

theorem lexCompare_self (lt : α → α → Bool) (hirr : ∀ x, lt x x = false) :
    ∀ xs : List α, lexicographicalCompare lt xs xs = false := by
  intro xs
  induction xs with
  | nil => rfl
  | cons x xs ih => simp [lexicographicalCompare, hirr x, ih]

theorem lexCompare_asymm (lt : α → α → Bool)
    (hasym : ∀ x y, lt x y = true → lt y x = false) :
    ∀ xs ys : List α, lexicographicalCompare lt xs ys = true →
      lexicographicalCompare lt ys xs = false := by
  intro xs
  induction xs with
  | nil =>
    intro ys h
    cases ys with
    | nil => rfl
    | cons y ys => rfl
  | cons x xs ih =>
    intro ys h
    cases ys with
    | nil => simp [lexicographicalCompare] at h
    | cons y ys =>
      simp only [lexicographicalCompare] at h ⊢
      by_cases hxy : lt x y = true
      · simp [hxy, hasym x y hxy]
      · by_cases hyx : lt y x = true
        · simp [hxy, hyx] at h
        · simp only [hxy, hyx, if_false] at h ⊢
          simp only [Bool.not_eq_true] at hxy hyx
          simp [hxy, hyx, ih ys h]

theorem lexCompare_both_false (lt : α → α → Bool)
    (htot : ∀ x y, lt x y = false → lt y x = false → x = y) :
    ∀ xs ys : List α, lexicographicalCompare lt xs ys = false →
      lexicographicalCompare lt ys xs = false → xs = ys := by
  intro xs
  induction xs with
  | nil =>
    intro ys h1 _
    cases ys with
    | nil => rfl
    | cons y ys => simp [lexicographicalCompare] at h1
  | cons x xs ih =>
    intro ys h1 h2
    cases ys with
    | nil => simp [lexicographicalCompare] at h2
    | cons y ys =>
      simp only [lexicographicalCompare] at h1 h2
      by_cases hxy : lt x y = true
      · simp [hxy] at h1
      · by_cases hyx : lt y x = true
        · simp [hyx] at h2
        · simp only [Bool.not_eq_true] at hxy hyx
          simp only [hxy, hyx, if_false] at h1 h2
          have := htot x y hxy hyx
          rw [this, ih ys h1 h2]

theorem lexCompare_nil_left (lt : α → α → Bool) (ys : List α) (h : ys ≠ []) :
    lexicographicalCompare lt [] ys = true := by
  cases ys with
  | nil => exact absurd rfl h
  | cons y ys => rfl

theorem lexCompare_append_right (lt : α → α → Bool)
    (hirr : ∀ x, lt x x = false) :
    ∀ (xs t : List α), t ≠ [] →
      lexicographicalCompare lt xs (xs ++ t) = true := by
  intro xs
  induction xs with
  | nil => intro t ht; exact lexCompare_nil_left lt t ht
  | cons x xs ih =>
    intro t ht
    simp only [List.cons_append, lexicographicalCompare, hirr x, if_false]
    exact ih t ht

theorem lexCompare_iff_lex [LinearOrder α] :
    ∀ xs ys : List α,
      lexicographicalCompare ltBool xs ys = true ↔
        List.Lex (fun x y => x < y) xs ys := by
  intro xs
  induction xs with
  | nil =>
    intro ys
    cases ys with
    | nil =>
      constructor
      · intro h; simp [lexicographicalCompare] at h
      · intro h; exact absurd h (List.Lex.not_nil_right _ _)
    | cons y ys =>
      constructor
      · intro _; exact List.Lex.nil
      · intro _; rfl
  | cons x xs ih =>
    intro ys
    cases ys with
    | nil =>
      constructor
      · intro h; simp [lexicographicalCompare] at h
      · intro h; exact absurd h (List.Lex.not_nil_right _ _)
    | cons y ys =>
      simp only [lexicographicalCompare]
      rcases lt_trichotomy x y with hxy | hEq | hyx
      · have hb : ltBool x y = true := by
          simp [ltBool, hxy]
        rw [if_pos hb]
        exact ⟨fun _ => List.Lex.rel hxy, fun _ => rfl⟩
      · subst hEq
        have hb : ltBool x x = false := by simp [ltBool]
        rw [if_neg (by simp [hb]), if_neg (by simp [hb])]
        rw [ih ys]
        constructor
        · intro h; exact List.Lex.cons h
        · intro h
          cases h with
          | cons h2 => exact h2
          | rel h2 => exact absurd h2 (lt_irrefl x)
      · have hb1 : ltBool x y = false := by
          simp only [ltBool, decide_eq_false_iff_not]
          exact not_lt.mpr (le_of_lt hyx)
        have hb2 : ltBool y x = true := by
          simp [ltBool, hyx]
        rw [if_neg (by simp [hb1]), if_pos hb2]
        constructor
        · intro h; exact absurd h Bool.false_ne_true
        · intro h
          cases h with
          | cons h2 => exact absurd hyx (lt_irrefl _)
          | rel h2 => exact absurd h2 (not_lt.mpr (le_of_lt hyx))

/-- C4: two lists compare equal under `operator==` exactly when their counts
agree and their elements are pairwise equal in order, and `operator!=` is the
negation of `operator==`.  (The counts are assumed truthful, which holds for
every reachable list by C1; `std::equal` walks only the left range, so a
corrupted count is the one state that could violate the sentence.) -/
theorem c4_listEq_iff [BEq α] [LawfulBEq α] (a b : SingleLinkedList α)
    (ha : a.size_ = a.chain.length) (hb : b.size_ = b.chain.length) :
    (listEq a b = true ↔ (a.GetSize = b.GetSize ∧ a.chain = b.chain)) ∧
    listNe a b = !(listEq a b) :=
  ⟨listEq_eq_true_iff a b ha hb, rfl⟩

/-- Witness for C4 at `[1, 2]` versus `[1, 2]`. -/
theorem c4_listEq_iff_witness :
    ((listEq (⟨[1, 2], 2⟩ : SingleLinkedList Nat) ⟨[1, 2], 2⟩ = true ↔
        ((⟨[1, 2], 2⟩ : SingleLinkedList Nat).GetSize =
            (⟨[1, 2], 2⟩ : SingleLinkedList Nat).GetSize ∧
          (⟨[1, 2], 2⟩ : SingleLinkedList Nat).chain =
            (⟨[1, 2], 2⟩ : SingleLinkedList Nat).chain)) ∧
      listNe (⟨[1, 2], 2⟩ : SingleLinkedList Nat) ⟨[1, 2], 2⟩ =
        !(listEq (⟨[1, 2], 2⟩ : SingleLinkedList Nat) ⟨[1, 2], 2⟩)) :=
  c4_listEq_iff ⟨[1, 2], 2⟩ ⟨[1, 2], 2⟩ rfl rfl

/-- C5: for two lists with truthful counts over a linearly ordered element
type, exactly one of `A < B`, `B < A`, `A == B` holds. -/
theorem c5_trichotomy [BEq α] [LawfulBEq α] [LinearOrder α]
    (a b : SingleLinkedList α)
    (ha : a.size_ = a.chain.length) (hb : b.size_ = b.chain.length) :
    (listEq a b = true ∧ listLt ltBool a b = false ∧ listLt ltBool b a = false) ∨
    (listEq a b = false ∧ listLt ltBool a b = true ∧ listLt ltBool b a = false) ∨
    (listEq a b = false ∧ listLt ltBool a b = false ∧ listLt ltBool b a = true) := by
  have hirr : ∀ x : α, ltBool x x = false := fun x => by simp [ltBool]
  have hasym : ∀ x y : α, ltBool x y = true → ltBool y x = false := by
    intro x y h
    simp only [ltBool, decide_eq_true_eq] at h
    simp [ltBool, le_of_lt h, not_lt]
  have htot : ∀ x y : α, ltBool x y = false → ltBool y x = false → x = y := by
    intro x y h1 h2
    simp only [ltBool, decide_eq_false_iff_not] at h1 h2
    exact le_antisymm (not_lt.mp h2) (not_lt.mp h1)
  by_cases h1 : listLt ltBool a b = true
  · refine Or.inr (Or.inl ⟨?_, h1, lexCompare_asymm ltBool hasym _ _ h1⟩)
    by_contra hne
    have heq : listEq a b = true := by
      revert hne
      cases listEq a b <;> simp
    have hch : a.chain = b.chain :=
      ((listEq_eq_true_iff a b ha hb).mp heq).2
    rw [listLt, hch, lexCompare_self ltBool hirr] at h1
    exact Bool.false_ne_true h1
  · by_cases h2 : listLt ltBool b a = true
    · refine Or.inr (Or.inr ⟨?_, by simpa using h1, h2⟩)
      by_contra hne
      have heq : listEq a b = true := by
        revert hne
        cases listEq a b <;> simp
      have hch : a.chain = b.chain :=
        ((listEq_eq_true_iff a b ha hb).mp heq).2
      rw [listLt, hch, lexCompare_self ltBool hirr] at h2
      exact Bool.false_ne_true h2
    · refine Or.inl ⟨?_, by simpa using h1, by simpa using h2⟩
      have hch : a.chain = b.chain :=
        lexCompare_both_false ltBool htot a.chain b.chain
          (by simpa [listLt] using h1) (by simpa [listLt] using h2)
      refine (listEq_eq_true_iff a b ha hb).mpr ⟨?_, hch⟩
      rw [GetSize, GetSize, ha, hb, hch]

/-- Witness for C5 at `[1]` versus `[2]`. -/
theorem c5_trichotomy_witness :
    (listEq (⟨[1], 1⟩ : SingleLinkedList Nat) ⟨[2], 1⟩ = true ∧
      listLt ltBool (⟨[1], 1⟩ : SingleLinkedList Nat) ⟨[2], 1⟩ = false ∧
      listLt ltBool (⟨[2], 1⟩ : SingleLinkedList Nat) ⟨[1], 1⟩ = false) ∨
    (listEq (⟨[1], 1⟩ : SingleLinkedList Nat) ⟨[2], 1⟩ = false ∧
      listLt ltBool (⟨[1], 1⟩ : SingleLinkedList Nat) ⟨[2], 1⟩ = true ∧
      listLt ltBool (⟨[2], 1⟩ : SingleLinkedList Nat) ⟨[1], 1⟩ = false) ∨
    (listEq (⟨[1], 1⟩ : SingleLinkedList Nat) ⟨[2], 1⟩ = false ∧
      listLt ltBool (⟨[1], 1⟩ : SingleLinkedList Nat) ⟨[2], 1⟩ = false ∧
      listLt ltBool (⟨[2], 1⟩ : SingleLinkedList Nat) ⟨[1], 1⟩ = true) :=
  c5_trichotomy ⟨[1], 1⟩ ⟨[2], 1⟩ rfl rfl

/-- C6: `operator<` on lists is lexicographic comparison of the element
sequences: it decides Mathlib's lexicographic order `List.Lex (· < ·)` on
the chains, the empty list compares less than every non-empty list, and
every proper prefix compares less than its extension. -/
theorem c6_listLt_lexicographic [LinearOrder α] :
    (∀ l r : SingleLinkedList α,
      l.chain = [] → r.chain ≠ [] → listLt ltBool l r = true) ∧
    (∀ (l r : SingleLinkedList α) (t : List α),
      t ≠ [] → r.chain = l.chain ++ t → listLt ltBool l r = true) ∧
    (∀ l r : SingleLinkedList α,
      listLt ltBool l r = true ↔ List.Lex (fun x y => x < y) l.chain r.chain) := by
  have hirr : ∀ x : α, ltBool x x = false := fun x => by simp [ltBool]
  refine ⟨?_, ?_, ?_⟩
  · intro l r hl hr
    rw [listLt, hl]
    exact lexCompare_nil_left ltBool r.chain hr
  · intro l r t ht hr
    rw [listLt, hr]
    exact lexCompare_append_right ltBool hirr l.chain t ht
  · intro l r
    exact lexCompare_iff_lex l.chain r.chain

/-- Witness for C6: `[] < [0]`, `[1, 2] < [1, 2, 0]` (proper prefix), and the
`List.Lex` characterization at `[1, 2, 3]` versus `[1, 2, 4]`. -/
theorem c6_listLt_lexicographic_witness :
    listLt ltBool (⟨[], 0⟩ : SingleLinkedList Nat) ⟨[0], 1⟩ = true ∧
    listLt ltBool (⟨[1, 2], 2⟩ : SingleLinkedList Nat) ⟨[1, 2, 0], 3⟩ = true ∧
    (listLt ltBool (⟨[1, 2, 3], 3⟩ : SingleLinkedList Nat) ⟨[1, 2, 4], 3⟩ = true ↔
      List.Lex (fun x y : Nat => x < y) [1, 2, 3] [1, 2, 4]) :=
  ⟨(c6_listLt_lexicographic (α := Nat)).1 ⟨[], 0⟩ ⟨[0], 1⟩ rfl (by decide),
   (c6_listLt_lexicographic (α := Nat)).2.1 ⟨[1, 2], 2⟩ ⟨[1, 2, 0], 3⟩ [0]
     (by decide) rfl,
   (c6_listLt_lexicographic (α := Nat)).2.2 ⟨[1, 2, 3], 3⟩ ⟨[1, 2, 4], 3⟩⟩

end SingleLinkedList
